import Mathlib

/-!
# twitter-to-discord: `bin/discordClient.js`

A shallow embedding of the two pieces of behaviour of `discordClient.js`:

* the `client.on('message', ...)` handler (the command gate), and
* the exported `send(tweet, str, files)` function (the fan-out dispatcher).

JavaScript strings are sequences of UTF-16 code units; they are modelled as
lists of natural numbers, one per code unit, so that `length`, `slice`,
`startsWith` and `split` count exactly what the engine counts.
`String.prototype.toLowerCase` is a built-in of the engine (full Unicode case
mapping); the handler takes it as an argument, and `asciiLower` is the
built-in restricted to strings of ASCII code units, used at concrete inputs.
-/

namespace DiscordClient

/-- A JavaScript string: its UTF-16 code units. -/
abbrev JSString := List Nat

/-- The code units of a literal made of Basic-Multilingual-Plane characters. -/
def units (s : String) : JSString := s.toList.map Char.toNat

/-- The code unit of the space character, the one the pattern `/ +/g` matches. -/
def SPACE : Nat := 32

/-- `String.prototype.toLowerCase` on a string of ASCII code units: `A`..`Z`
    go to `a`..`z`, every other unit stays. -/
def asciiLower (s : JSString) : JSString :=
  s.map (fun u => if 65 ≤ u ∧ u ≤ 90 then u + 32 else u)

/-- `s.startsWith(p)`: the code units of `p` are the first units of `s`. -/
def startsWith (s p : JSString) : Bool := p.isPrefixOf s

/-- `s.slice(n)` for a non-negative `n`: the units from index `n` on. -/
def slice (s : JSString) (n : Nat) : JSString := s.drop n

/-- The scan behind `s.split(/ +/g)`. The result lists the pieces from the
    current position on, the piece under construction first. `inRun` says that
    the unit just before the current position was part of a separator (a
    maximal run of spaces), so a further space only lengthens that separator. -/
def splitGo (inRun : Bool) : JSString → List JSString
  | [] => [[]]
  | c :: cs =>
    if c = SPACE then
      if inRun then splitGo true cs else [] :: splitGo true cs
    else
      match splitGo false cs with
      | [] => [[c]]
      | p :: ps => (c :: p) :: ps

/-- `s.split(/ +/g)`: the pieces of `s` between maximal runs of spaces. A
    string that starts (ends) with a space yields an empty first (last) piece,
    and the empty string yields one empty piece. -/
def splitSpaces (s : JSString) : List JSString := splitGo false s

/-- The fields of `process.env` the module reads. -/
structure Env where
  DISCORD_CMD_PREFIX : JSString
  DISCORD_BOT_OWNER_ID : JSString
  TEMP : JSString

/-- The fields of `msg.author` the handler reads. -/
structure Author where
  id : JSString
  bot : Bool
  tag : JSString
  deriving DecidableEq

/-- The fields of `msg.guild` the handler reads (`owner_id` is `guild.owner.id`). -/
structure Guild where
  name : JSString
  owner_id : JSString
  deriving DecidableEq

/-- The fields of `msg.channel` the handler reads. -/
structure MsgChannel where
  type : JSString
  name : JSString
  deriving DecidableEq

/-- A discord.js message as the handler sees it. `guild` is `none` for a message
    outside a guild (a direct message). `params`, `cmd` and `prefix` are the
    properties the handler assigns; they are `none` while unassigned. -/
structure Message where
  author : Author
  content : JSString
  guild : Option Guild
  channel : MsgChannel
  params : Option (List JSString)
  cmd : Option JSString
  prefix_ : Option JSString
  deriving DecidableEq

/-- How a run of the handler ends. -/
inductive Completion where
  | returned
  | threwTypeError
  deriving DecidableEq, Repr

/-- What a run of the `'message'` handler did: the message object as the
    handler left it, the arguments of its `commandHandler(msg)` calls in order,
    and whether it returned or threw. -/
structure Run where
  msg : Message
  forwarded : List Message
  completion : Completion

/-- The callback of `client.on('message', msg => ...)`, lines 51-76.
    Console output is left out, except that building the guild log line reads
    `msg.guild.name`, which throws when there is no guild. -/
def onMessage (toLowerCase : JSString → JSString) (env : Env) (msg : Message) : Run :=
  -- if (msg.author.bot) return;
  if msg.author.bot then ⟨msg, [], .returned⟩
  -- if (!msg.content.startsWith(process.env.DISCORD_CMD_PREFIX)) return;
  else if !startsWith msg.content env.DISCORD_CMD_PREFIX then ⟨msg, [], .returned⟩
  else
    -- msg.author.id !== OWNER && msg.author.id !== msg.guild.owner.id
    let notAllowed : Option Bool :=
      if msg.author.id ≠ env.DISCORD_BOT_OWNER_ID then
        match msg.guild with
        | none => none
        | some g => some (decide (msg.author.id ≠ g.owner_id))
      else some false
    match notAllowed with
    | none => ⟨msg, [], .threwTypeError⟩
    | some true => ⟨msg, [], .returned⟩
    | some false =>
      -- msg.params = msg.content.split(/ +/g).map(x => x.toLowerCase());
      let params := (splitSpaces msg.content).map toLowerCase
      -- msg.cmd = msg.params.shift().slice(PREFIX.length).toLowerCase();
      match params with
      | [] => ⟨{ msg with params := some [] }, [], .threwTypeError⟩
      | first :: rest =>
        let cmd := toLowerCase (slice first env.DISCORD_CMD_PREFIX.length)
        let msg1 : Message := { msg with params := some rest, cmd := some cmd }
        -- if (!msg.cmd) return;
        if cmd = [] then ⟨msg1, [], .returned⟩
        -- if (msg.cmd !== 'twitter') return;
        else if cmd ≠ units "twitter" then ⟨msg1, [], .returned⟩
        -- the log line: msg.guild.name is read unless msg.channel.type === 'dm'
        else if msg.channel.type ≠ units "dm" ∧ msg.guild.isNone then
          ⟨msg1, [], .threwTypeError⟩
        else
          -- msg.prefix = process.env.DISCORD_CMD_PREFIX; commandHandler(msg);
          let msg2 : Message := { msg1 with prefix_ := some env.DISCORD_CMD_PREFIX }
          ⟨msg2, [msg2], .returned⟩

/-! ## The dispatcher: `send` and `channelSend` -/

/-- An element of a feed record's `channels` array. -/
structure ChannelRef where
  channel_id : JSString
  deriving DecidableEq

/-- A feed record of `FeedsModel`. -/
structure Feed where
  twitter_id : JSString
  channels : List ChannelRef
  deriving DecidableEq

/-- A channel of `client.channels`; `canSend` is the value of
    `channel.permissionsFor(client.user).has('SEND_MESSAGES')`. -/
structure Channel where
  id : JSString
  canSend : Bool
  deriving DecidableEq

/-- The fields of a tweet `send` reads (`user_id_str` is `tweet.user.id_str`). -/
structure Tweet where
  id_str : JSString
  user_id_str : JSString
  deriving DecidableEq

/-- The object `{ channel_id, message_id }` a successful `channelSend` resolves to. -/
structure Delivered where
  channel_id : JSString
  message_id : JSString
  deriving DecidableEq

/-- The document handed to `new TweetsModel(...)`. -/
structure TweetEntry where
  tweet_id : JSString
  messages : List Delivered
  deriving DecidableEq

/-- How the promise of `FeedsModel.findOne` settles. -/
inductive FindResult where
  | rejected
  | resolved (data : Option Feed)
  deriving DecidableEq

/-- How the promise of `channel.send` settles. -/
inductive SendResult where
  | fulfilled (message_id : JSString)
  | rejected
  deriving DecidableEq

/-- A settled `channel.send`: the instant it settled at and its result. -/
structure Settled where
  settledAt : Nat
  result : SendResult
  deriving DecidableEq

/-- The collaborators of `send` at the time of one dispatch. Every promise is
    taken to settle. `sendOutcome i c` is what the `i`-th call of
    `channel.send` of the dispatch, made on channel `c`, settles to, and
    `saveOk entry` tells whether the promise of `entry.save()` is fulfilled. -/
structure World where
  findOne : JSString → FindResult
  channels : List Channel
  sendOutcome : Nat → Channel → Settled
  saveOk : TweetEntry → Bool

/-- The errors that reach `console.error` through a `.catch`. -/
inductive Failure where
  | lookupRejected
  | typeError
  | saveRejected
  deriving DecidableEq

/-- The calls `send` makes on its collaborators. -/
inductive Event where
  | findOne (twitter_id : JSString)
  | channelSend (channel_id : JSString) (str : JSString) (files : List JSString)
  | save (entry : TweetEntry)
  | rimraf (dir : JSString) (name : JSString)
  | consoleError (failure : Failure)
  deriving DecidableEq

/-- What one call of `send` did: the calls it made, in order, and how the
    call itself ended. -/
structure Dispatch where
  events : List Event
  completion : Completion
  deriving DecidableEq

/-- `client.channels.get(id)`: `client.channels` is a collection keyed by the
    channel id. -/
def channelsGet (w : World) (id : JSString) : Option Channel :=
  w.channels.find? (fun c => decide (c.id = id))

/-- The function `channelSend(channel, str, files)`, lines 125-131, for the
    `i`-th call of the dispatch: the instant its promise settles at and the
    value it resolves to (`none` when it rejects). -/
def channelSend (w : World) (i : Nat) (channel : Channel) : Nat × Option Delivered :=
  let s := w.sendOutcome i channel
  (s.settledAt,
    match s.result with
    | .fulfilled message_id => some { channel_id := channel.id, message_id := message_id }
    | .rejected => none)

/-- The last `.map(c => channelSend(c, str, files))` of line 98, the calls
    numbered from `i` on. -/
def sendAll (w : World) : Nat → List Channel → List (Nat × Option Delivered)
  | _, [] => []
  | i, c :: cs => channelSend w i c :: sendAll w (i + 1) cs

/-- Modelled from the spec: `utils.promiseSome`, which is not among the
    sources. The spec's best-effort-all combinator: it waits for every attempt
    to settle, collects the successful results in the order the attempts
    complete, and drops the failed ones; it never fails itself. -/
def promiseSome {α : Type} (attempts : List (Nat × Option α)) : List α :=
  (attempts.insertionSort (fun a b => a.1 ≤ b.1)).filterMap (fun a => a.2)

/-- The channels of lines 95-97: each reference looked up in `client.channels`,
    those kept that exist and grant `SEND_MESSAGES`. -/
def retained (w : World) (data : Feed) : List Channel :=
  (data.channels.map (fun c => channelsGet w c.channel_id)).filterMap
    (fun c => match c with
      | some ch => if ch.canSend then some ch else none
      | none => none)

/-- The exported `send(tweet, str, files)`, lines 89-122. The path handed to
    `rimraf` is kept as the two arguments of `path.join`. -/
def send (w : World) (env : Env) (tweet : Tweet) (str : JSString) (files : List JSString) :
    Dispatch :=
  match w.findOne tweet.user_id_str with
  | .rejected =>
    -- the outer .catch(console.error)
    ⟨[.findOne tweet.user_id_str, .consoleError .lookupRejected], .returned⟩
  | .resolved none =>
    -- reading data.channels throws inside .then; the outer .catch logs it
    ⟨[.findOne tweet.user_id_str, .consoleError .typeError], .returned⟩
  | .resolved (some data) =>
    let channels := retained w data
    let promiseResults := promiseSome (sendAll w 0 channels)
    let entry : TweetEntry := { tweet_id := tweet.id_str, messages := promiseResults }
    ⟨[.findOne tweet.user_id_str]
        ++ channels.map (fun c => .channelSend c.id str files)
        ++ [.save entry, .rimraf env.TEMP (units "tweet-" ++ tweet.id_str)]
        ++ (if w.saveOk entry then [] else [.consoleError .saveRejected]),
      .returned⟩

/-! ## Reading a trace -/

/-- The `channel.send` calls of a trace, in order. -/
def sendsOf (events : List Event) : List (JSString × JSString × List JSString) :=
  events.filterMap (fun e => match e with
    | .channelSend c s f => some (c, s, f)
    | _ => none)

/-- The documents saved in a trace, in order. -/
def savesOf (events : List Event) : List TweetEntry :=
  events.filterMap (fun e => match e with
    | .save entry => some entry
    | _ => none)

/-- The directories removed in a trace, in order. -/
def rimrafsOf (events : List Event) : List (JSString × JSString) :=
  events.filterMap (fun e => match e with
    | .rimraf d n => some (d, n)
    | _ => none)

/-- A channel reference is kept by lines 95-97: it resolves in
    `client.channels` and the channel grants `SEND_MESSAGES`. -/
def keeps (w : World) (r : ChannelRef) : Bool :=
  match channelsGet w r.channel_id with
  | some ch => ch.canSend
  | none => false

/-- The results of the fulfilled attempts, in the order the attempts were made,
    the calls numbered from `i` on. -/
def successes (w : World) : Nat → List Channel → List Delivered
  | _, [] => []
  | i, c :: cs =>
    match (w.sendOutcome i c).result with
    | .fulfilled message_id => { channel_id := c.id, message_id := message_id } :: successes w (i + 1) cs
    | .rejected => successes w (i + 1) cs

/-- The text after the command word: each trailing token `t` preceded by a
    separator of `k + 1` spaces, for the pairs `(k, t)` of the list in order. -/
def trailing : List (Nat × JSString) → JSString
  | [] => []
  | (k, t) :: rest => List.replicate (k + 1) SPACE ++ t ++ trailing rest

/-- `String.prototype.toLowerCase` on a string of ASCII code units and
    U+0130 (capital I with dot above), which lower-cases to the two units
    `i`, U+0307. -/
def dottedLower (s : JSString) : JSString :=
  s.flatMap (fun u => if u = 304 then [105, 775] else if 65 ≤ u ∧ u ≤ 90 then [u + 32] else [u])

/-! ## Concrete inputs -/

/-- A configuration with the prefix `!`. -/
def env0 : Env :=
  { DISCORD_CMD_PREFIX := units "!", DISCORD_BOT_OWNER_ID := units "100", TEMP := units "/tmp" }

/-- A message in a guild text channel with the given author id and content. -/
def guildMsg (authorId content : JSString) : Message :=
  { author := { id := authorId, bot := false, tag := units "user#0001" },
    content := content,
    guild := some { name := units "home", owner_id := units "200" },
    channel := { type := units "text", name := units "general" },
    params := none, cmd := none, prefix_ := none }

/-- A direct message with the given author id and content: there is no guild. -/
def directMsg (authorId content : JSString) : Message :=
  { author := { id := authorId, bot := false, tag := units "user#0001" },
    content := content,
    guild := none,
    channel := { type := units "dm", name := [] },
    params := none, cmd := none, prefix_ := none }

/-- A feed for the author `7` with the channels `A`, `B`, `C`, in this order. -/
def feedABC : Feed :=
  { twitter_id := units "7",
    channels := [⟨units "A"⟩, ⟨units "B"⟩, ⟨units "C"⟩] }

/-- A dispatch in which `B` lacks the permission and the send on `C` fails;
    `A` settles at instant 5 with message id `m1`. -/
def worldABC (saveOk : Bool) : World :=
  { findOne := fun id => if id = units "7" then .resolved (some feedABC) else .resolved none,
    channels := [⟨units "C", true⟩, ⟨units "B", false⟩, ⟨units "A", true⟩],
    sendOutcome := fun _ c =>
      if c.id = units "A" then ⟨5, .fulfilled (units "m1")⟩ else ⟨2, .rejected⟩,
    saveOk := fun _ => saveOk }

/-- A feed for the author `7` that lists the channel `A` twice. -/
def feedAA : Feed :=
  { twitter_id := units "7", channels := [⟨units "A"⟩, ⟨units "A"⟩] }

/-- A dispatch in which both sends on `A` succeed, the first with message id
    `m1`, the second with `m2`. -/
def worldAA : World :=
  { findOne := fun id => if id = units "7" then .resolved (some feedAA) else .resolved none,
    channels := [⟨units "A", true⟩],
    sendOutcome := fun i _ =>
      if i = 0 then ⟨1, .fulfilled (units "m1")⟩ else ⟨2, .fulfilled (units "m2")⟩,
    saveOk := fun _ => true }

/-- A tweet of the author `7`. -/
def tweet7 : Tweet := { id_str := units "900", user_id_str := units "7" }

/-- A tweet of the author `8`, who has no feed record. -/
def tweet8 : Tweet := { id_str := units "901", user_id_str := units "8" }

/-! ## Splitting on runs of spaces -/

/-- A run of several spaces is one separator, and a final space leaves an
    empty last piece. -/
theorem splitSpaces_inner_and_final : splitSpaces (units "a  b ")
    = [units "a", units "b", []] := by decide

/-- A leading space leaves an empty first piece. -/
theorem splitSpaces_leading : splitSpaces (units " a") = [[], units "a"] := by decide

/-- The empty string is one empty piece. -/
theorem splitSpaces_empty : splitSpaces [] = [[]] := by decide

theorem splitGo_ne_nil (b : Bool) (s : JSString) : splitGo b s ≠ [] := by
  induction s generalizing b with
  | nil => simp [splitGo]
  | cons c cs ih =>
    unfold splitGo
    by_cases hc : c = SPACE
    · cases b
      · simp [hc]
      · simpa [hc] using ih true
    · simp only [hc, if_false]
      split <;> simp

theorem splitGo_cons_of_ne (b : Bool) (c : Nat) (cs : JSString) (hc : c ≠ SPACE) :
    splitGo b (c :: cs) = splitGo false (c :: cs) := by
  simp [splitGo, hc]

theorem splitGo_append_piece (t rest p : JSString) (ps : List JSString) (ht : SPACE ∉ t)
    (h : splitGo false rest = p :: ps) : splitGo false (t ++ rest) = (t ++ p) :: ps := by
  induction t with
  | nil => simpa using h
  | cons c cs ih =>
    have hc : c ≠ SPACE := fun e => ht (by simp [e])
    have hcs : SPACE ∉ cs := fun e => ht (by simp [e])
    simp [splitGo, hc, ih hcs]

theorem splitGo_true_spaces (k : Nat) (x : JSString) :
    splitGo true (List.replicate k SPACE ++ x) = splitGo true x := by
  induction k with
  | zero => simp
  | succ k ih => simpa [List.replicate_succ, splitGo] using ih

theorem splitGo_trailing (trail : List (Nat × JSString))
    (h : ∀ p ∈ trail, p.2 ≠ [] ∧ SPACE ∉ p.2) :
    splitGo false (trailing trail) = [] :: trail.map (fun p => p.2) := by
  induction trail with
  | nil => rfl
  | cons q tr ih =>
    obtain ⟨k, t⟩ := q
    have hq := h (k, t) (by simp)
    have ih1 := ih (fun p hp => h p (by simp [hp]))
    have hstep : splitGo true (t ++ trailing tr) = t :: tr.map (fun p => p.2) := by
      cases t with
      | nil => exact absurd rfl hq.1
      | cons c cs =>
        have hc : c ≠ SPACE := fun e => hq.2 (by simp [e])
        rw [List.cons_append, splitGo_cons_of_ne true c _ hc, ← List.cons_append,
          splitGo_append_piece (c :: cs) (trailing tr) [] _ hq.2 ih1]
        simp
    have hshape : trailing ((k, t) :: tr)
        = SPACE :: (List.replicate k SPACE ++ (t ++ trailing tr)) := by
      simp [trailing, List.replicate_succ]
    rw [hshape]
    simp only [splitGo, if_true, Bool.false_eq_true, if_false, List.map_cons]
    rw [splitGo_true_spaces, hstep]

theorem splitGo_no_space (b : Bool) (s : JSString) : ∀ p ∈ splitGo b s, SPACE ∉ p := by
  induction s generalizing b with
  | nil => simp [splitGo]
  | cons c cs ih =>
    intro p hp
    unfold splitGo at hp
    by_cases hc : c = SPACE
    · cases b
      · simp only [hc, if_true, Bool.false_eq_true, if_false, List.mem_cons] at hp
        rcases hp with rfl | hp
        · simp
        · exact ih true p hp
      · simp only [hc, if_true] at hp
        exact ih true p hp
    · simp only [hc, if_false] at hp
      cases hs : splitGo false cs with
      | nil => exact absurd hs (splitGo_ne_nil false cs)
      | cons p0 ps =>
        rw [hs] at hp
        simp only [List.mem_cons] at hp
        rcases hp with rfl | hp
        · have h0 := ih false p0 (by simp [hs])
          intro hm
          rcases List.mem_cons.mp hm with e | e
          · exact hc e.symm
          · exact h0 e
        · exact ih false p (by simp [hs, hp])

theorem splitGo_inner_nonempty (s : JSString) :
    (∀ t ∈ (splitGo true s).dropLast, t ≠ []) ∧
    (∀ t ∈ (splitGo false s).tail.dropLast, t ≠ []) := by
  induction s with
  | nil => simp [splitGo]
  | cons c cs ih =>
    by_cases hc : c = SPACE
    · constructor
      · simpa [splitGo, hc] using ih.1
      · simpa [splitGo, hc] using ih.1
    · have key : ∀ b, ∀ t ∈ (splitGo b (c :: cs)).dropLast, t ≠ [] := by
        intro b t ht
        rw [splitGo_cons_of_ne b c cs hc] at ht
        unfold splitGo at ht
        simp only [hc, if_false] at ht
        cases hs : splitGo false cs with
        | nil => exact absurd hs (splitGo_ne_nil false cs)
        | cons p0 ps =>
          rw [hs] at ht
          cases ps with
          | nil => simp at ht
          | cons p1 ps1 =>
            simp only [List.dropLast_cons₂, List.mem_cons] at ht
            rcases ht with rfl | ht
            · simp
            · exact ih.2 t (by simpa [hs] using ht)
      constructor
      · exact key true
      · intro t ht
        unfold splitGo at ht
        simp only [hc, if_false] at ht
        cases hs : splitGo false cs with
        | nil => exact absurd hs (splitGo_ne_nil false cs)
        | cons p0 ps =>
          rw [hs] at ht
          exact ih.2 t (by simpa [hs] using ht)

theorem trailing_cons (k : Nat) (t : JSString) (tr : List (Nat × JSString)) :
    trailing ((k, t) :: tr) = SPACE :: (List.replicate k SPACE ++ (t ++ trailing tr)) := by
  simp [trailing, List.replicate_succ]

/-- Every string is a first piece followed by separated pieces, and the scan
    returns these pieces; when the scan starts inside a separator, the rest of
    that separator comes first. -/
theorem splitGo_decompose (s : JSString) :
    (∃ first trail, s = first ++ trailing trail ∧
      splitGo false s = first :: trail.map (fun p => p.2)) ∧
    (∃ k first trail, s = List.replicate k SPACE ++ (first ++ trailing trail) ∧
      splitGo true s = first :: trail.map (fun p => p.2)) := by
  induction s with
  | nil => exact ⟨⟨[], [], rfl, rfl⟩, ⟨0, [], [], rfl, rfl⟩⟩
  | cons c cs ih =>
    obtain ⟨⟨f, tr, hcs, hgo⟩, ⟨k, f2, tr2, hcs2, hgo2⟩⟩ := ih
    by_cases hc : c = SPACE
    · constructor
      · refine ⟨[], (k, f2) :: tr2, ?_, ?_⟩
        · rw [trailing_cons, List.nil_append, hc, ← hcs2]
        · simp [splitGo, hc, hgo2]
      · refine ⟨k + 1, f2, tr2, ?_, ?_⟩
        · rw [List.replicate_succ, List.cons_append, hc, ← hcs2]
        · simp [splitGo, hc, hgo2]
    · have hboth : ∀ b, splitGo b (c :: cs) = (c :: f) :: tr.map (fun p => p.2) := by
        intro b
        rw [splitGo_cons_of_ne b c cs hc]
        simp [splitGo, hc, hgo]
      constructor
      · exact ⟨c :: f, tr, by rw [List.cons_append, ← hcs], hboth false⟩
      · exact ⟨0, c :: f, tr, by rw [List.replicate_zero, List.nil_append, List.cons_append, ← hcs],
          hboth true⟩

theorem splitGo_trailing_last_empty (trail : List (Nat × JSString))
    (hsp : ∀ p ∈ trail, SPACE ∉ p.2) (hne : ∀ p ∈ trail.dropLast, p.2 ≠ []) :
    splitGo false (trailing trail) = [] :: trail.map (fun p => p.2) := by
  induction trail with
  | nil => rfl
  | cons q tr ih =>
    obtain ⟨k, t⟩ := q
    have hq : SPACE ∉ t := hsp (k, t) (by simp)
    rw [trailing_cons]
    simp only [splitGo, if_true, Bool.false_eq_true, if_false, List.map_cons]
    rw [splitGo_true_spaces]
    cases tr with
    | nil =>
      cases t with
      | nil => simp [trailing, splitGo]
      | cons c cs =>
        have hc : c ≠ SPACE := fun e => hq (by simp [e])
        rw [List.cons_append, splitGo_cons_of_ne true c _ hc, ← List.cons_append,
          splitGo_append_piece (c :: cs) (trailing []) [] [] hq rfl]
        simp
    | cons q2 tr2 =>
      have ih1 := ih (fun p hp => hsp p (List.mem_cons_of_mem _ hp))
        (fun p hp => hne p (by
          rw [List.dropLast_cons_of_ne_nil (List.cons_ne_nil _ _)]
          exact List.mem_cons_of_mem _ hp))
      have ht : t ≠ [] := hne (k, t) (by
        rw [List.dropLast_cons_of_ne_nil (List.cons_ne_nil _ _)]
        exact List.mem_cons_self _ _)
      cases t with
      | nil => exact absurd rfl ht
      | cons c cs =>
        have hc : c ≠ SPACE := fun e => hq (by simp [e])
        rw [List.cons_append, splitGo_cons_of_ne true c _ hc, ← List.cons_append,
          splitGo_append_piece (c :: cs) (trailing (q2 :: tr2)) [] _ hq ih1]
        simp

/-- The pieces of a string written as a space-free first piece followed by
    space-free pieces, each after a run of spaces and none but possibly the
    last one empty, are these pieces: such a writing is unique. -/
theorem splitSpaces_of_pieces (first : JSString) (trail : List (Nat × JSString))
    (hf : SPACE ∉ first) (hsp : ∀ p ∈ trail, SPACE ∉ p.2)
    (hne : ∀ p ∈ trail.dropLast, p.2 ≠ []) :
    splitSpaces (first ++ trailing trail) = first :: trail.map (fun p => p.2) := by
  have := splitGo_append_piece first (trailing trail) [] _ hf
    (splitGo_trailing_last_empty trail hsp hne)
  simpa [splitSpaces] using this

/-- Every string has a writing as in `splitSpaces_of_pieces`. -/
theorem exists_pieces (s : JSString) :
    ∃ first trail, s = first ++ trailing trail ∧ SPACE ∉ first ∧
      (∀ p ∈ trail, SPACE ∉ p.2) ∧ (∀ p ∈ trail.dropLast, p.2 ≠ []) := by
  obtain ⟨first, trail, hs, hgo⟩ := (splitGo_decompose s).1
  refine ⟨first, trail, hs, ?_, ?_, ?_⟩
  · exact splitGo_no_space false s first (by rw [hgo]; exact List.mem_cons_self _ _)
  · intro p hp
    exact splitGo_no_space false s p.2 (by
      rw [hgo]
      exact List.mem_cons_of_mem _ (List.mem_map_of_mem _ hp))
  · intro p hp
    have h2 := (splitGo_inner_nonempty s).2
    rw [hgo, List.tail_cons, ← List.map_dropLast] at h2
    exact h2 p.2 (List.mem_map_of_mem _ hp)

/-! ## The command gate -/

/-- C8. A message whose author is flagged as a bot is never forwarded to
    `commandHandler`, whatever its content and author id; the handler returns
    and leaves the message as it was. -/
theorem onMessage_ignores_bots (toLowerCase : JSString → JSString) (env : Env) (msg : Message)
    (hbot : msg.author.bot = true) :
    (onMessage toLowerCase env msg).forwarded = [] ∧
    (onMessage toLowerCase env msg).msg = msg ∧
    (onMessage toLowerCase env msg).completion = .returned := by
  simp [onMessage, hbot]

/-- The theorem `onMessage_ignores_bots` at a bot that carries the owner's id and sends a
    well-formed command. -/
theorem onMessage_ignores_bots_witness :
    ({ guildMsg (units "100") (units "!twitter add") with
        author := { id := units "100", bot := true, tag := units "bot#0001" } } : Message).author.bot
      = true ∧
    (onMessage asciiLower env0
      { guildMsg (units "100") (units "!twitter add") with
        author := { id := units "100", bot := true, tag := units "bot#0001" } }).forwarded = [] :=
  ⟨rfl, (onMessage_ignores_bots asciiLower env0 _ rfl).1⟩

/-- C9. A message whose content does not begin with the units of
    `DISCORD_CMD_PREFIX`, compared exactly, is never forwarded, whatever the
    sender. -/
theorem onMessage_requires_prefix (toLowerCase : JSString → JSString) (env : Env) (msg : Message)
    (hpre : ¬ env.DISCORD_CMD_PREFIX <+: msg.content) :
    (onMessage toLowerCase env msg).forwarded = [] := by
  have h : startsWith msg.content env.DISCORD_CMD_PREFIX = false := by
    cases hb : startsWith msg.content env.DISCORD_CMD_PREFIX
    · rfl
    · exact absurd (List.isPrefixOf_iff_prefix.mp hb) hpre
  unfold onMessage
  split
  · rfl
  · simp [h]

/-- The theorem `onMessage_requires_prefix` at the owner writing the prefix `t!` in upper case. -/
theorem onMessage_requires_prefix_witness :
    (¬ (units "t!") <+: (units "T!twitter")) ∧
    (onMessage asciiLower { env0 with DISCORD_CMD_PREFIX := units "t!" }
      (guildMsg (units "100") (units "T!twitter"))).forwarded = [] :=
  ⟨by decide, onMessage_requires_prefix asciiLower _ _ (by decide)⟩

/-- C2. A message whose author id differs from `DISCORD_BOT_OWNER_ID` and from
    the id of the owner of the message's guild is never forwarded, whatever
    its content. -/
theorem onMessage_owner_only (toLowerCase : JSString → JSString) (env : Env) (msg : Message)
    (hown : msg.author.id ≠ env.DISCORD_BOT_OWNER_ID)
    (hguild : ∀ g, msg.guild = some g → msg.author.id ≠ g.owner_id) :
    (onMessage toLowerCase env msg).forwarded = [] := by
  unfold onMessage
  split
  · rfl
  · split
    · rfl
    · cases hg : msg.guild with
      | none => simp [hown]
      | some g => simp [hown, hguild g hg]

/-- The theorem `onMessage_owner_only` at a guild member who is neither owner and sends a
    well-formed command. -/
theorem onMessage_owner_only_witness :
    (guildMsg (units "300") (units "!twitter add")).author.id ≠ env0.DISCORD_BOT_OWNER_ID ∧
    (∀ g, (guildMsg (units "300") (units "!twitter add")).guild = some g →
      (guildMsg (units "300") (units "!twitter add")).author.id ≠ g.owner_id) ∧
    (onMessage asciiLower env0 (guildMsg (units "300") (units "!twitter add"))).forwarded = [] :=
  ⟨by decide, by intro g hg; cases hg; decide,
    onMessage_owner_only asciiLower env0 _ (by decide) (by intro g hg; cases hg; decide)⟩

/-- C3, the code at the failing input. A direct message (no guild) that starts
    with the prefix, from a sender who is neither a bot nor the bot owner, is
    not forwarded, and the handler does not return: reading
    `msg.guild.owner.id` throws. -/
theorem onMessage_direct_message_throws :
    (onMessage asciiLower env0 (directMsg (units "300") (units "!twitter"))).forwarded = [] ∧
    (onMessage asciiLower env0 (directMsg (units "300") (units "!twitter"))).completion
      = .threwTypeError := by
  decide

/-- C1, as stated, fails: the owner writes the prefix, `twitter`, then a
    trailing token separated by a tab, and nothing is forwarded. -/
theorem onMessage_tab_separator_not_forwarded :
    (guildMsg (units "100") (units "!twitter\tadd")).author.bot = false ∧
    (guildMsg (units "100") (units "!twitter\tadd")).author.id = env0.DISCORD_BOT_OWNER_ID ∧
    (guildMsg (units "100") (units "!twitter\tadd")).content
      = env0.DISCORD_CMD_PREFIX ++ units "twitter" ++ units "\t" ++ units "add" ∧
    (onMessage asciiLower env0 (guildMsg (units "100") (units "!twitter\tadd"))).forwarded = [] := by
  decide

/-- C1, amended. Let the prefix hold no space, the sender be no bot and be the
    bot owner or the owner of the message's guild, the message be a direct
    message or have a guild, and the content be the prefix, then a word without
    spaces, then zero or more non-empty space-free tokens each preceded by one
    or more spaces. If lower-casing the prefix followed by the word gives the
    lower-cased prefix (of the prefix's length) followed by `twitter`, the
    handler returns after exactly one call of `commandHandler`, on the message
    with `cmd = 'twitter'`, `prefix` the configured prefix and `params` the
    trailing tokens lower-cased in their order. -/
theorem onMessage_forwards_twitter (toLowerCase : JSString → JSString) (env : Env)
    (msg : Message) (word : JSString) (trail : List (Nat × JSString))
    (hbot : msg.author.bot = false)
    (hauth : msg.author.id = env.DISCORD_BOT_OWNER_ID ∨
      ∃ g, msg.guild = some g ∧ msg.author.id = g.owner_id)
    (hctx : msg.channel.type = units "dm" ∨ msg.guild ≠ none)
    (hpre : SPACE ∉ env.DISCORD_CMD_PREFIX)
    (hword : SPACE ∉ word)
    (htrail : ∀ p ∈ trail, p.2 ≠ [] ∧ SPACE ∉ p.2)
    (hcontent : msg.content = env.DISCORD_CMD_PREFIX ++ word ++ trailing trail)
    (hlow : toLowerCase (env.DISCORD_CMD_PREFIX ++ word)
      = toLowerCase env.DISCORD_CMD_PREFIX ++ units "twitter")
    (hlen : (toLowerCase env.DISCORD_CMD_PREFIX).length = env.DISCORD_CMD_PREFIX.length)
    (hfix : toLowerCase (units "twitter") = units "twitter") :
    (onMessage toLowerCase env msg).completion = .returned ∧
    (onMessage toLowerCase env msg).forwarded =
      [{ msg with
          params := some (trail.map (fun p => toLowerCase p.2)),
          cmd := some (units "twitter"),
          prefix_ := some env.DISCORD_CMD_PREFIX }] := by
  have hsplit : splitSpaces msg.content
      = (env.DISCORD_CMD_PREFIX ++ word) :: trail.map (fun p => p.2) := by
    have hfirst : SPACE ∉ env.DISCORD_CMD_PREFIX ++ word := by
      simp [hpre, hword]
    have := splitGo_append_piece (env.DISCORD_CMD_PREFIX ++ word) (trailing trail) [] _ hfirst
      (splitGo_trailing trail htrail)
    simpa [splitSpaces, hcontent] using this
  have hstart : startsWith msg.content env.DISCORD_CMD_PREFIX = true := by
    rw [startsWith, List.isPrefixOf_iff_prefix, hcontent, List.append_assoc]
    exact List.prefix_append _ _
  have hcmd : toLowerCase (slice (toLowerCase (env.DISCORD_CMD_PREFIX ++ word))
      env.DISCORD_CMD_PREFIX.length) = units "twitter" := by
    rw [hlow, slice, List.drop_left' hlen, hfix]
  have hne : units "twitter" ≠ [] := by decide
  have hallowed : (if msg.author.id ≠ env.DISCORD_BOT_OWNER_ID then
        match msg.guild with
        | none => none
        | some g => some (decide (msg.author.id ≠ g.owner_id))
      else some false) = some false := by
    rcases hauth with h | ⟨g, hg, h⟩
    · simp [h]
    · by_cases ho : msg.author.id = env.DISCORD_BOT_OWNER_ID
      · simp [ho]
      · simp [ho, hg, h]
  have hlog : ¬ (msg.channel.type ≠ units "dm" ∧ msg.guild.isNone = true) := by
    rintro ⟨h1, h2⟩
    rcases hctx with h | h
    · exact h1 h
    · exact h (by simpa using h2)
  unfold onMessage
  simp only [hbot, hstart, hallowed, hsplit, List.map_cons, hcmd, hne, hlog]
  simp

/-- A prefix that holds a space never yields the command: the first piece of
    `! twitter` is `!` alone. -/
theorem onMessage_prefix_with_space : (onMessage asciiLower { env0 with DISCORD_CMD_PREFIX := units "! " }
    (guildMsg (units "100") (units "! twitter"))).forwarded = [] := by decide

/-- A prefix whose lower-casing is longer than itself: the slice keeps a unit
    of the lower-cased prefix in front of `twitter`. -/
theorem onMessage_prefix_growing_in_lower_case :
    (onMessage dottedLower { env0 with DISCORD_CMD_PREFIX := [304] }
    (guildMsg (units "100") ([304] ++ units "twitter"))).forwarded = [] := by decide

/-- The owner's command in a channel that is not of type `dm` and has no
    guild: building the log line throws before `commandHandler` is called. -/
theorem onMessage_owner_without_guild_throws : (onMessage asciiLower env0
    { directMsg (units "100") (units "!twitter") with
      channel := { type := units "group", name := [] } }).completion = .threwTypeError ∧
    (onMessage asciiLower env0
    { directMsg (units "100") (units "!twitter") with
      channel := { type := units "group", name := [] } }).forwarded = [] := by decide

/-- The theorem `onMessage_forwards_twitter` at the guild owner writing `!TWitter Add  Foo`
    (one space, then two). -/
theorem onMessage_forwards_twitter_witness :
    (onMessage asciiLower env0 (guildMsg (units "200") (units "!TWitter Add  Foo"))).completion
      = .returned ∧
    (onMessage asciiLower env0 (guildMsg (units "200") (units "!TWitter Add  Foo"))).forwarded =
      [{ guildMsg (units "200") (units "!TWitter Add  Foo") with
          params := some ([(0, units "Add"), (1, units "Foo")].map (fun p => asciiLower p.2)),
          cmd := some (units "twitter"),
          prefix_ := some env0.DISCORD_CMD_PREFIX }] :=
  onMessage_forwards_twitter asciiLower env0 (guildMsg (units "200") (units "!TWitter Add  Foo"))
    (units "TWitter") [(0, units "Add"), (1, units "Foo")]
    (by decide) (Or.inr ⟨_, rfl, by decide⟩) (Or.inr (by decide)) (by decide) (by decide)
    (by decide) (by decide) (by decide) (by decide) (by decide)

/-- C10, as stated, fails: the owner's `!twitter a<TAB>b ` (ending in a space)
    is forwarded with the two parameters `a<TAB>b` and the empty string, so a
    forwarded token holds a whitespace character and a forwarded token is
    empty; splitting on runs of whitespace would give `a` and `b`. -/
theorem onMessage_params_keep_tab_and_empty :
    (onMessage asciiLower env0 (guildMsg (units "100") (units "!twitter a\tb "))).forwarded.map
        (fun m => m.params) = [some [units "a\tb", []]] ∧
    (¬ ∀ m ∈ (onMessage asciiLower env0 (guildMsg (units "100") (units "!twitter a\tb "))).forwarded,
        ∀ ps, m.params = some ps → ∀ t ∈ ps, 9 ∉ t) ∧
    (¬ ∀ m ∈ (onMessage asciiLower env0 (guildMsg (units "100") (units "!twitter a\tb "))).forwarded,
        ∀ ps, m.params = some ps → ∀ t ∈ ps, t ≠ []) := by
  have hev : (onMessage asciiLower env0 (guildMsg (units "100") (units "!twitter a\tb "))).forwarded
      = [{ guildMsg (units "100") (units "!twitter a\tb ") with
            params := some [units "a\tb", []],
            cmd := some (units "twitter"),
            prefix_ := some (units "!") }] := by decide
  refine ⟨by decide, ?_, ?_⟩
  · intro h
    exact h _ (by rw [hev]; exact List.mem_singleton.mpr rfl) _ rfl (units "a\tb") (by decide)
      (by decide)
  · intro h
    exact h _ (by rw [hev]; exact List.mem_singleton.mpr rfl) _ rfl [] (by decide) rfl

theorem onMessage_forwarded_pieces (toLowerCase : JSString → JSString) (env : Env)
    (msg m : Message) (h : m ∈ (onMessage toLowerCase env msg).forwarded) :
    ∃ first rest, splitSpaces msg.content = first :: rest ∧
      m.cmd = some (toLowerCase (slice (toLowerCase first) env.DISCORD_CMD_PREFIX.length)) ∧
      m.cmd = some (units "twitter") ∧
      m.params = some (rest.map toLowerCase) := by
  cases hs : splitSpaces msg.content with
  | nil => exact absurd hs (splitGo_ne_nil false msg.content)
  | cons first rest =>
    refine ⟨first, rest, rfl, ?_⟩
    unfold onMessage at h
    rw [hs] at h
    simp only [List.map_cons] at h
    repeat' split at h
    all_goals first
      | (simp at h; done)
      | (simp only [List.mem_singleton] at h
         subst h
         refine ⟨rfl, ?_, rfl⟩
         simp_all)

/-- C10, amended. For every message the handler forwards, the content can be
    written as a first piece followed by zero or more remaining pieces, each
    preceded by a run of one or more space characters, where no piece holds a
    space and no remaining piece but possibly the last one is empty. For every
    such writing of the content, `cmd` is the lower-cased first piece with the
    prefix's length dropped from its start, lower-cased again, and it is
    `twitter`; and `params` is exactly the remaining pieces, each lower-cased,
    in order. -/
theorem onMessage_params_split_on_spaces (toLowerCase : JSString → JSString) (env : Env)
    (msg m : Message) (h : m ∈ (onMessage toLowerCase env msg).forwarded) :
    (∃ first trail, msg.content = first ++ trailing trail ∧ SPACE ∉ first ∧
      (∀ p ∈ trail, SPACE ∉ p.2) ∧ (∀ p ∈ trail.dropLast, p.2 ≠ [])) ∧
    (∀ first trail, msg.content = first ++ trailing trail → SPACE ∉ first →
      (∀ p ∈ trail, SPACE ∉ p.2) → (∀ p ∈ trail.dropLast, p.2 ≠ []) →
      m.cmd = some (toLowerCase (slice (toLowerCase first) env.DISCORD_CMD_PREFIX.length)) ∧
      m.cmd = some (units "twitter") ∧
      m.params = some (trail.map (fun p => toLowerCase p.2))) := by
  refine ⟨exists_pieces msg.content, ?_⟩
  intro first trail hcontent hf hsp hne
  obtain ⟨first2, rest2, hs, hcmd, htw, hparams⟩ :=
    onMessage_forwarded_pieces toLowerCase env msg m h
  have hs2 := splitSpaces_of_pieces first trail hf hsp hne
  rw [← hcontent, hs] at hs2
  obtain ⟨h1, h2⟩ := List.cons.inj hs2
  subst h1 h2
  refine ⟨hcmd, htw, ?_⟩
  rw [hparams, List.map_map]
  rfl

/-- The theorem `onMessage_params_split_on_spaces` at the owner's `!twitter a<TAB>b  c `
    (two spaces before `c`, one after): the parameters are `a<TAB>b`, `c` and
    the empty string. -/
theorem onMessage_params_split_on_spaces_witness :
    ({ guildMsg (units "100") (units "!twitter a\tb  c ") with
        params := some [units "a\tb", units "c", []],
        cmd := some (units "twitter"),
        prefix_ := some (units "!") } : Message)
      ∈ (onMessage asciiLower env0 (guildMsg (units "100") (units "!twitter a\tb  c "))).forwarded ∧
    (guildMsg (units "100") (units "!twitter a\tb  c ")).content
      = units "!twitter" ++ trailing [(0, units "a\tb"), (1, units "c"), (0, [])] ∧
    ({ guildMsg (units "100") (units "!twitter a\tb  c ") with
        params := some [units "a\tb", units "c", []],
        cmd := some (units "twitter"),
        prefix_ := some (units "!") } : Message).params
      = some ([(0, units "a\tb"), (1, units "c"), (0, [])].map (fun p => asciiLower p.2)) :=
  ⟨by decide, by decide,
    ((onMessage_params_split_on_spaces asciiLower env0
      (guildMsg (units "100") (units "!twitter a\tb  c "))
      { guildMsg (units "100") (units "!twitter a\tb  c ") with
        params := some [units "a\tb", units "c", []],
        cmd := some (units "twitter"),
        prefix_ := some (units "!") }
      (by decide)).2 (units "!twitter") [(0, units "a\tb"), (1, units "c"), (0, [])]
      (by decide) (by decide) (by decide) (by decide)).2.2⟩

/-! ## The dispatcher -/

theorem channelsGet_id (w : World) (id : JSString) (c : Channel)
    (h : channelsGet w id = some c) : c.id = id := by
  have := List.find?_some h
  simpa using this

theorem retained_cons (w : World) (tw : JSString) (r : ChannelRef) (rs : List ChannelRef) :
    retained w ⟨tw, r :: rs⟩ =
      (match channelsGet w r.channel_id with
        | some ch => if ch.canSend then [ch] else []
        | none => []) ++ retained w ⟨tw, rs⟩ := by
  unfold retained
  cases hg : channelsGet w r.channel_id with
  | none => simp [hg]
  | some ch =>
    by_cases hc : ch.canSend = true
    · simp [hg, hc]
    · simp [hg, hc]

theorem retained_ids (w : World) (data : Feed) :
    (retained w data).map (fun c => c.id)
      = (data.channels.filter (keeps w)).map (fun r => r.channel_id) := by
  obtain ⟨tw, refs⟩ := data
  induction refs with
  | nil => simp [retained]
  | cons r rs ih =>
    rw [retained_cons, List.map_append, ih]
    have hk : keeps w r = (match channelsGet w r.channel_id with
        | some ch => ch.canSend
        | none => false) := rfl
    cases hg : channelsGet w r.channel_id with
    | none =>
      rw [hg] at hk
      simp [List.filter_cons, hk]
    | some ch =>
      rw [hg] at hk
      by_cases hc : ch.canSend = true
      · simp [List.filter_cons, hk, hc, channelsGet_id w _ ch hg]
      · simp [List.filter_cons, hk, hc]

theorem mem_retained (w : World) (data : Feed) (c : Channel) (hc : c ∈ retained w data) :
    ∃ r ∈ data.channels, keeps w r = true ∧ r.channel_id = c.id := by
  obtain ⟨tw, refs⟩ := data
  induction refs with
  | nil => simp [retained] at hc
  | cons r rs ih =>
    rw [retained_cons, List.mem_append] at hc
    rcases hc with hc | hc
    · cases hg : channelsGet w r.channel_id with
      | none => simp [hg] at hc
      | some ch =>
        rw [hg] at hc
        by_cases hs : ch.canSend = true
        · simp only [hs, if_true, List.mem_singleton] at hc
          subst hc
          exact ⟨r, by simp, by simp [keeps, hg, hs], (channelsGet_id w _ c hg).symm⟩
        · simp [hs] at hc
    · obtain ⟨r', hr', hk, hid⟩ := ih hc
      exact ⟨r', by simp at hr' ⊢; exact Or.inr hr', hk, hid⟩

theorem sendsOf_channelSends (cs : List Channel) (str : JSString) (files : List JSString) :
    sendsOf (cs.map (fun c => Event.channelSend c.id str files))
      = cs.map (fun c => (c.id, str, files)) := by
  induction cs with
  | nil => rfl
  | cons c cs ih =>
    simp only [sendsOf] at ih
    simp [sendsOf, ih]

theorem savesOf_channelSends (cs : List Channel) (str : JSString) (files : List JSString) :
    savesOf (cs.map (fun c => Event.channelSend c.id str files)) = [] := by
  induction cs with
  | nil => rfl
  | cons c cs ih =>
    simp only [savesOf] at ih
    simp [savesOf, ih]

theorem rimrafsOf_channelSends (cs : List Channel) (str : JSString) (files : List JSString) :
    rimrafsOf (cs.map (fun c => Event.channelSend c.id str files)) = [] := by
  induction cs with
  | nil => rfl
  | cons c cs ih =>
    simp only [rimrafsOf] at ih
    simp [rimrafsOf, ih]

theorem promiseSome_perm {α : Type} (attempts : List (Nat × Option α)) :
    (promiseSome attempts).Perm (attempts.filterMap (fun a => a.2)) :=
  (List.perm_insertionSort _ attempts).filterMap _

theorem sendAll_fulfilled (w : World) (i : Nat) (cs : List Channel) :
    (sendAll w i cs).filterMap (fun a => a.2) = successes w i cs := by
  induction cs generalizing i with
  | nil => rfl
  | cons c cs ih =>
    simp only [sendAll, successes, channelSend]
    cases hr : (w.sendOutcome i c).result with
    | fulfilled m => simp [ih]
    | rejected => simp [ih]

theorem successes_length_le (w : World) (i : Nat) (cs : List Channel) :
    (successes w i cs).length ≤ cs.length := by
  induction cs generalizing i with
  | nil => simp [successes]
  | cons c cs ih =>
    simp only [successes]
    cases (w.sendOutcome i c).result with
    | fulfilled m => simpa using ih (i + 1)
    | rejected => exact Nat.le_succ_of_le (ih (i + 1))

theorem successes_ids_sublist (w : World) (i : Nat) (cs : List Channel) :
    ((successes w i cs).map (fun d => d.channel_id)).Sublist (cs.map (fun c => c.id)) := by
  induction cs generalizing i with
  | nil => simp [successes]
  | cons c cs ih =>
    simp only [successes, List.map_cons]
    cases (w.sendOutcome i c).result with
    | fulfilled m => exact (ih (i + 1)).cons₂ _
    | rejected => exact (ih (i + 1)).cons _

theorem successes_countP_le (w : World) (i : Nat) (cs : List Channel) (id : JSString) :
    (successes w i cs).countP (fun d => decide (d.channel_id = id))
      ≤ cs.countP (fun c => decide (c.id = id)) := by
  induction cs generalizing i with
  | nil => simp [successes]
  | cons c cs ih =>
    simp only [successes]
    cases (w.sendOutcome i c).result with
    | fulfilled m =>
      simp only [List.countP_cons]
      exact Nat.add_le_add_right (ih (i + 1)) _
    | rejected =>
      simp only [List.countP_cons]
      exact Nat.le_add_right_of_le (ih (i + 1))

theorem mem_successes (w : World) (i : Nat) (cs : List Channel) (d : Delivered) :
    d ∈ successes w i cs ↔
      ∃ j c, cs[j]? = some c ∧
        (w.sendOutcome (i + j) c).result = .fulfilled d.message_id ∧ d.channel_id = c.id := by
  induction cs generalizing i with
  | nil => simp [successes]
  | cons c cs ih =>
    have hshift : (∃ j c', cs[j]? = some c' ∧
          (w.sendOutcome (i + 1 + j) c').result = .fulfilled d.message_id ∧ d.channel_id = c'.id)
        ↔ ∃ j c', (c :: cs)[j + 1]? = some c' ∧
          (w.sendOutcome (i + (j + 1)) c').result = .fulfilled d.message_id ∧
          d.channel_id = c'.id := by
      constructor
      · rintro ⟨j, c', h1, h2, h3⟩
        exact ⟨j, c', by simpa using h1, by rwa [show i + (j + 1) = i + 1 + j by omega], h3⟩
      · rintro ⟨j, c', h1, h2, h3⟩
        exact ⟨j, c', by simpa using h1, by rwa [show i + 1 + j = i + (j + 1) by omega], h3⟩
    have hsplit : (∃ j c', (c :: cs)[j]? = some c' ∧
          (w.sendOutcome (i + j) c').result = .fulfilled d.message_id ∧ d.channel_id = c'.id)
        ↔ ((w.sendOutcome i c).result = .fulfilled d.message_id ∧ d.channel_id = c.id) ∨
          ∃ j c', (c :: cs)[j + 1]? = some c' ∧
            (w.sendOutcome (i + (j + 1)) c').result = .fulfilled d.message_id ∧
            d.channel_id = c'.id := by
      constructor
      · rintro ⟨j, c', h1, h2, h3⟩
        cases j with
        | zero =>
          simp only [List.getElem?_cons_zero, Option.some.injEq] at h1
          subst h1
          exact Or.inl ⟨by simpa using h2, h3⟩
        | succ j => exact Or.inr ⟨j, c', h1, h2, h3⟩
      · rintro (⟨h2, h3⟩ | ⟨j, c', h1, h2, h3⟩)
        · exact ⟨0, c, by simp, by simpa using h2, h3⟩
        · exact ⟨j + 1, c', h1, h2, h3⟩
    rw [hsplit, ← hshift, ← ih (i + 1)]
    simp only [successes]
    cases hr : (w.sendOutcome i c).result with
    | fulfilled m =>
      simp only [List.mem_cons, SendResult.fulfilled.injEq]
      constructor
      · rintro (h | h)
        · subst h
          exact Or.inl ⟨rfl, rfl⟩
        · exact Or.inr h
      · rintro (⟨h1, h2⟩ | h)
        · left
          cases d
          simp_all
        · exact Or.inr h
    | rejected => simp

theorem send_events (w : World) (env : Env) (tweet : Tweet) (str : JSString)
    (files : List JSString) (data : Feed)
    (h : w.findOne tweet.user_id_str = .resolved (some data)) :
    (send w env tweet str files).events =
      [Event.findOne tweet.user_id_str]
        ++ (retained w data).map (fun c => Event.channelSend c.id str files)
        ++ [Event.save ⟨tweet.id_str, promiseSome (sendAll w 0 (retained w data))⟩,
            Event.rimraf env.TEMP (units "tweet-" ++ tweet.id_str)]
        ++ (if w.saveOk ⟨tweet.id_str, promiseSome (sendAll w 0 (retained w data))⟩ then []
            else [Event.consoleError .saveRejected]) := by
  simp only [send, h]

theorem sendsOf_send (w : World) (env : Env) (tweet : Tweet) (str : JSString)
    (files : List JSString) (data : Feed)
    (h : w.findOne tweet.user_id_str = .resolved (some data)) :
    sendsOf (send w env tweet str files).events
      = (retained w data).map (fun c => (c.id, str, files)) := by
  have hs := sendsOf_channelSends (retained w data) str files
  rw [send_events w env tweet str files data h]
  simp only [sendsOf] at hs ⊢
  rw [List.filterMap_append, List.filterMap_append, List.filterMap_append, hs]
  split <;> simp

theorem savesOf_send (w : World) (env : Env) (tweet : Tweet) (str : JSString)
    (files : List JSString) (data : Feed)
    (h : w.findOne tweet.user_id_str = .resolved (some data)) :
    savesOf (send w env tweet str files).events
      = [⟨tweet.id_str, promiseSome (sendAll w 0 (retained w data))⟩] := by
  have hs := savesOf_channelSends (retained w data) str files
  rw [send_events w env tweet str files data h]
  simp only [savesOf] at hs ⊢
  rw [List.filterMap_append, List.filterMap_append, List.filterMap_append, hs]
  split <;> simp

/-- C4, the code at the failing input. The author `8` has no feed record
    (`findOne` resolves to `null`): `send` makes no `channel.send` call, saves
    nothing and returns, the `TypeError` of `data.channels` reaching
    `console.error`; and `rimraf` is not called at all. -/
theorem send_without_feed_skips_cleanup :
    (worldABC true).findOne tweet8.user_id_str = .resolved none ∧
    (send (worldABC true) env0 tweet8 (units "hi") []).events
      = [.findOne (units "8"), .consoleError .typeError] ∧
    sendsOf (send (worldABC true) env0 tweet8 (units "hi") []).events = [] ∧
    savesOf (send (worldABC true) env0 tweet8 (units "hi") []).events = [] ∧
    (send (worldABC true) env0 tweet8 (units "hi") []).completion = .returned ∧
    rimrafsOf (send (worldABC true) env0 tweet8 (units "hi") []).events = [] := by
  decide

/-- C6. When the feed lookup returns a record, the `channel.send` calls of the
    dispatch are, in the record's order, one call with the given content and
    files for each channel reference that resolves in `client.channels` to a
    channel granting `SEND_MESSAGES`, and no other call. -/
theorem send_attempts_kept_references (w : World) (env : Env) (tweet : Tweet) (str : JSString)
    (files : List JSString) (data : Feed)
    (h : w.findOne tweet.user_id_str = .resolved (some data)) :
    sendsOf (send w env tweet str files).events
      = (data.channels.filter (keeps w)).map (fun r => (r.channel_id, str, files)) := by
  rw [sendsOf_send w env tweet str files data h]
  have := congrArg (List.map (fun id : JSString => (id, str, files))) (retained_ids w data)
  simpa [List.map_map, Function.comp_def] using this

/-- The theorem `send_attempts_kept_references` at the feed `[A, B, C]` with `B` lacking
    the permission: the calls go to `A` and `C`, in this order. -/
theorem send_attempts_kept_references_witness :
    (worldABC true).findOne tweet7.user_id_str = .resolved (some feedABC) ∧
    sendsOf (send (worldABC true) env0 tweet7 (units "hi") [units "a.png"]).events
      = (feedABC.channels.filter (keeps (worldABC true))).map
          (fun r => (r.channel_id, units "hi", [units "a.png"])) ∧
    feedABC.channels.filter (keeps (worldABC true)) = [⟨units "A"⟩, ⟨units "C"⟩] :=
  ⟨by decide,
    send_attempts_kept_references (worldABC true) env0 tweet7 (units "hi") [units "a.png"] feedABC
      (by decide),
    by decide⟩

/-- C5, as stated, fails: the feed lists the channel `A` twice, both
    references are kept and both sends succeed, so `channel.send` is called
    twice on `A` and the saved document holds two entries for the one
    attempted channel `A`. -/
theorem send_duplicate_reference_two_entries :
    worldAA.findOne tweet7.user_id_str = .resolved (some feedAA) ∧
    sendsOf (send worldAA env0 tweet7 (units "hi") []).events
      = [(units "A", units "hi", []), (units "A", units "hi", [])] ∧
    savesOf (send worldAA env0 tweet7 (units "hi") []).events
      = [⟨units "900", [⟨units "A", units "m1"⟩, ⟨units "A", units "m2"⟩]⟩] ∧
    ¬ (([⟨units "A", units "m1"⟩, ⟨units "A", units "m2"⟩] : List Delivered).map
        (fun d => d.channel_id)).Nodup := by
  decide

/-- C5, amended. When the feed lookup returns a record, exactly one document
    is saved; its `tweet_id` is the tweet's `id_str`; its `messages` are, up
    to order, the results of the fulfilled attempts on the kept channels, one
    per fulfilled attempt: an entry is in the list exactly when some attempt
    on a kept channel was fulfilled with that message id on that channel;
    there are at most as many entries as attempts, and for each channel id at
    most as many entries as `channel.send` calls on that channel, so at most
    one entry per channel when the feed's channel references are pairwise
    distinct; no entry names a channel reference that was filtered out, nor a
    channel all of whose attempts were rejected; and a dispatch that differs
    only in the instants at which the sends settle saves the same entries up
    to order. -/
theorem send_saves_exactly_successes (w : World) (env : Env) (tweet : Tweet) (str : JSString)
    (files : List JSString) (data : Feed)
    (h : w.findOne tweet.user_id_str = .resolved (some data)) :
    ∃ entry, savesOf (send w env tweet str files).events = [entry] ∧
      entry.tweet_id = tweet.id_str ∧
      entry.messages.Perm (successes w 0 (retained w data)) ∧
      (∀ d, d ∈ entry.messages ↔
        ∃ i c, (retained w data)[i]? = some c ∧
          (w.sendOutcome i c).result = .fulfilled d.message_id ∧ d.channel_id = c.id) ∧
      entry.messages.length ≤ (sendsOf (send w env tweet str files).events).length ∧
      (∀ id : JSString, entry.messages.countP (fun d => decide (d.channel_id = id))
        ≤ (sendsOf (send w env tweet str files).events).countP (fun a => decide (a.1 = id))) ∧
      ((data.channels.map (fun r => r.channel_id)).Nodup →
        (entry.messages.map (fun d => d.channel_id)).Nodup) ∧
      (∀ r : ChannelRef, keeps w r = false → ∀ d ∈ entry.messages, d.channel_id ≠ r.channel_id) ∧
      (∀ id : JSString,
        (∀ i c, (retained w data)[i]? = some c → c.id = id →
          (w.sendOutcome i c).result = .rejected) →
        ∀ d ∈ entry.messages, d.channel_id ≠ id) ∧
      (∀ w2 : World, w2.findOne = w.findOne → w2.channels = w.channels →
        (∀ i c, (w2.sendOutcome i c).result = (w.sendOutcome i c).result) →
        ∃ entry2, savesOf (send w2 env tweet str files).events = [entry2] ∧
          entry2.messages.Perm entry.messages) := by
  have hperm : (promiseSome (sendAll w 0 (retained w data))).Perm
      (successes w 0 (retained w data)) := by
    have := promiseSome_perm (sendAll w 0 (retained w data))
    rwa [sendAll_fulfilled] at this
  have hmem : ∀ d, d ∈ promiseSome (sendAll w 0 (retained w data)) ↔
      ∃ i c, (retained w data)[i]? = some c ∧
        (w.sendOutcome i c).result = .fulfilled d.message_id ∧ d.channel_id = c.id := by
    intro d
    rw [hperm.mem_iff, mem_successes]
    simp
  refine ⟨⟨tweet.id_str, promiseSome (sendAll w 0 (retained w data))⟩,
    savesOf_send w env tweet str files data h, rfl, hperm, hmem, ?_, ?_, ?_, ?_, ?_, ?_⟩
  · rw [sendsOf_send w env tweet str files data h, List.length_map, hperm.length_eq]
    exact successes_length_le w 0 _
  · intro id
    rw [sendsOf_send w env tweet str files data h, List.countP_map]
    show (promiseSome (sendAll w 0 (retained w data))).countP
        (fun d => decide (d.channel_id = id))
      ≤ (retained w data).countP (fun c => decide (c.id = id))
    rw [hperm.countP_eq]
    exact successes_countP_le w 0 (retained w data) id
  · intro hnd
    have hkept : ((retained w data).map (fun c => c.id)).Nodup := by
      rw [retained_ids]
      exact hnd.sublist ((List.filter_sublist data.channels).map _)
    show ((promiseSome (sendAll w 0 (retained w data))).map (fun d => d.channel_id)).Nodup
    exact ((hperm.map (fun d => d.channel_id)).nodup_iff).mpr
      (hkept.sublist (successes_ids_sublist w 0 (retained w data)))
  · intro r hr d hd hid
    obtain ⟨i, c, hc, -, hdc⟩ := (hmem d).mp hd
    obtain ⟨r2, -, hk, hid2⟩ := mem_retained w data c (List.getElem?_mem hc)
    have : keeps w r = keeps w r2 := by
      simp only [keeps]
      rw [← hid, hdc, ← hid2]
    rw [this, hk] at hr
    exact absurd hr (by simp)
  · intro id hall d hd hid
    obtain ⟨i, c, hc, hful, hdc⟩ := (hmem d).mp hd
    have := hall i c hc (by rw [← hdc, hid])
    rw [this] at hful
    exact absurd hful (by simp)
  · intro w2 hf hch hres
    have hret : retained w2 data = retained w data := by
      simp only [retained, channelsGet, hch]
    have hsucc : ∀ (cs : List Channel) (i : Nat), successes w2 i cs = successes w i cs := by
      intro cs
      induction cs with
      | nil => intro i; rfl
      | cons c cs ih =>
        intro i
        simp only [successes, hres, ih]
    have h2 : w2.findOne tweet.user_id_str = .resolved (some data) := by rw [hf, h]
    refine ⟨⟨tweet.id_str, promiseSome (sendAll w2 0 (retained w2 data))⟩,
      savesOf_send w2 env tweet str files data h2, ?_⟩
    show (promiseSome (sendAll w2 0 (retained w2 data))).Perm
      (promiseSome (sendAll w 0 (retained w data)))
    rw [hret]
    have hp2 := promiseSome_perm (sendAll w2 0 (retained w data))
    rw [sendAll_fulfilled, hsucc] at hp2
    exact hp2.trans hperm.symm

/-- The theorem `send_saves_exactly_successes` at the feed `[A, B, C]` with `B` lacking
    the permission and the send on `C` failing: the saved document holds the
    outcome of `A` only, and no channel twice. -/
theorem send_saves_exactly_successes_witness :
    (worldABC true).findOne tweet7.user_id_str = .resolved (some feedABC) ∧
    (∃ entry, savesOf (send (worldABC true) env0 tweet7 (units "hi") []).events = [entry] ∧
      entry.tweet_id = tweet7.id_str ∧
      entry.messages.Perm (successes (worldABC true) 0 (retained (worldABC true) feedABC)) ∧
      (entry.messages.map (fun d => d.channel_id)).Nodup) ∧
    successes (worldABC true) 0 (retained (worldABC true) feedABC)
      = [⟨units "A", units "m1"⟩] :=
  ⟨by decide,
    (send_saves_exactly_successes (worldABC true) env0 tweet7 (units "hi") [] feedABC
      (by decide)).imp
        (fun _ hx => ⟨hx.1, hx.2.1, hx.2.2.1, hx.2.2.2.2.2.2.1 (by decide)⟩),
    by decide⟩

/-- C7. When the feed lookup returns a record, the trace of the dispatch is
    some calls, then the save of the delivery record, then the removal of
    `TEMP/tweet-<id_str>`, then at most the logging of a failed save. No
    removal and no save comes before the pair, no send, save or removal after
    it, so the removal is called exactly once and right after the save was
    started, whether the save succeeds or fails. A failed save reaches
    `console.error` and `send` returns; the sends and the removal are the
    same whatever the outcome of the save. -/
theorem send_cleans_up_after_save (w : World) (env : Env) (tweet : Tweet) (str : JSString)
    (files : List JSString) (data : Feed)
    (h : w.findOne tweet.user_id_str = .resolved (some data)) :
    (∃ before entry after,
      (send w env tweet str files).events
        = before ++ [Event.save entry, Event.rimraf env.TEMP (units "tweet-" ++ tweet.id_str)]
            ++ after ∧
      rimrafsOf before = [] ∧ savesOf before = [] ∧
      sendsOf after = [] ∧ savesOf after = [] ∧ rimrafsOf after = [] ∧
      (w.saveOk entry = true → after = []) ∧
      (w.saveOk entry = false → after = [Event.consoleError .saveRejected])) ∧
    rimrafsOf (send w env tweet str files).events
      = [(env.TEMP, units "tweet-" ++ tweet.id_str)] ∧
    (send w env tweet str files).completion = .returned ∧
    (∀ ok : TweetEntry → Bool,
      sendsOf (send { w with saveOk := ok } env tweet str files).events
        = sendsOf (send w env tweet str files).events ∧
      rimrafsOf (send { w with saveOk := ok } env tweet str files).events
        = rimrafsOf (send w env tweet str files).events) := by
  have hpre : rimrafsOf ([Event.findOne tweet.user_id_str]
      ++ (retained w data).map (fun c => Event.channelSend c.id str files)) = [] := by
    have hs := rimrafsOf_channelSends (retained w data) str files
    simp only [rimrafsOf] at hs ⊢
    rw [List.filterMap_append, hs]
    simp
  have hpre2 : savesOf ([Event.findOne tweet.user_id_str]
      ++ (retained w data).map (fun c => Event.channelSend c.id str files)) = [] := by
    have hs := savesOf_channelSends (retained w data) str files
    simp only [savesOf] at hs ⊢
    rw [List.filterMap_append, hs]
    simp
  have hrim : ∀ w1 : World, w1.findOne tweet.user_id_str = .resolved (some data) →
      rimrafsOf (send w1 env tweet str files).events
        = [(env.TEMP, units "tweet-" ++ tweet.id_str)] := by
    intro w1 h1
    have hs := rimrafsOf_channelSends (retained w1 data) str files
    rw [send_events w1 env tweet str files data h1]
    simp only [rimrafsOf] at hs ⊢
    rw [List.filterMap_append, List.filterMap_append, List.filterMap_append, hs]
    split <;> simp
  refine ⟨⟨_, _, _, send_events w env tweet str files data h, hpre, hpre2, ?_, ?_, ?_, ?_, ?_⟩,
    hrim w h, ?_, ?_⟩
  · split <;> simp [sendsOf]
  · split <;> simp [savesOf]
  · split <;> simp [rimrafsOf]
  · intro hok
    simp [hok]
  · intro hok
    simp [hok]
  · simp only [send, h]
  · intro ok
    have h1 : ({ w with saveOk := ok } : World).findOne tweet.user_id_str
        = .resolved (some data) := h
    refine ⟨?_, ?_⟩
    · rw [sendsOf_send _ env tweet str files data h1, sendsOf_send w env tweet str files data h]
      rfl
    · rw [hrim _ h1, hrim w h]

/-- The theorem `send_cleans_up_after_save` at the feed `[A, B, C]` when the save fails. -/
theorem send_cleans_up_after_save_witness :
    (worldABC false).findOne tweet7.user_id_str = .resolved (some feedABC) ∧
    (worldABC false).saveOk ⟨units "900", [⟨units "A", units "m1"⟩]⟩ = false ∧
    rimrafsOf (send (worldABC false) env0 tweet7 (units "hi") []).events
      = [(env0.TEMP, units "tweet-" ++ tweet7.id_str)] ∧
    (send (worldABC false) env0 tweet7 (units "hi") []).completion = .returned :=
  ⟨by decide, by decide,
    (send_cleans_up_after_save (worldABC false) env0 tweet7 (units "hi") [] feedABC
      (by decide)).2.1,
    (send_cleans_up_after_save (worldABC false) env0 tweet7 (units "hi") [] feedABC
      (by decide)).2.2.1⟩

end DiscordClient
